import Mathlib

/-!
Shallow embedding of `molvs/normalize.py`: the fixed-point rule-application
engine (`Normalizer.normalize`, `Normalizer._apply_transform`) and the lazily
compiled rule container (`Normalization`).

The external RDKit primitives are kept abstract in an environment `Env`:

* `runReactants r g` models `[x[0] for x in rule.RunReactants((mol,))]` —
  the list of candidate product graphs, in generation order;
* `sanitizeOk g` models `Chem.SanitizeMol(product, catchErrors=True) == 0`;
* `canonical g` models `Chem.MolToSmiles(product, isomericSmiles=True)`;
* `sanitizeMol g` models the in-place `Chem.SanitizeMol(mol)` performed on the
  gave-up path of `normalize`, viewed as a function on graph values.

Graphs are an abstract type `G` and compiled transforms an abstract type `R`;
the engine only ever passes them to the environment's primitives.
-/

/-- Environment of external primitives used by the normalizer. -/
structure Env (G : Type) (R : Type) where
  runReactants : R → G → List G
  sanitizeOk : G → Bool
  canonical : G → String
  sanitizeMol : G → G

/-- The string order used by Python's `sorted` on SMILES keys: lexicographic
comparison by code point. This is exactly core `String.le` (which compares
`.data` lists of characters lexicographically). -/
def smilesLe (a b : String) : Prop := String.le a b

instance : DecidableRel smilesLe := fun a b => String.decLE a b

variable {G R : Type}

/-- One round's valid candidates, in generation order: every product of
`rule.RunReactants` over each `mol in mols`, kept when
`Chem.SanitizeMol(product, catchErrors=True) == 0`
(`normalize.py` lines 148-151). -/
def validProducts (env : Env G R) (rule : R) (mols : List G) : List G :=
  (mols.flatMap (env.runReactants rule)).filter env.sanitizeOk

/-- Value stored in the `products` dict at key `s`: Python dict insertion
overwrites, so the last inserted product whose canonical SMILES is `s` wins. -/
def dictLookup (env : Env G R) (s : String) (ps : List G) : Option G :=
  (ps.filter (fun p => env.canonical p == s)).getLast?

/-- The keys of the `products` dict, sorted: `sorted(products)`
(`normalize.py` line 153). The dict's key set is the set of canonical SMILES
of the valid products. -/
def sortedKeys (env : Env G R) (ps : List G) : List String :=
  List.insertionSort smilesLe ((ps.map env.canonical).dedup)

/-- `mols = [products[s] for s in sorted(products)]` (`normalize.py` line 153):
the next round's frontier. -/
def roundMols (env : Env G R) (rule : R) (mols : List G) : List G :=
  (sortedKeys env (validProducts env rule mols)).filterMap
    (fun s => dictLookup env s (validProducts env rule mols))

/-- The loop `for n in xrange(20)` of `Normalizer._apply_transform`
(`normalize.py` lines 146-156). `fuel` is the number of remaining rounds
(initially 20) and `n` the current round index, so `fuel + n = 20` throughout.
When all 20 rounds produce a non-empty `products` dict the Python loop
completes and the function falls off its end, implicitly returning `None`
(the `fuel = 0` case). Otherwise, an empty round returns `mols[0]` when
`n > 0` and `None` when `n = 0`. -/
def Normalizer.apply_transform_go (env : Env G R) (rule : R) :
    Nat → Nat → List G → Option G
  | 0, _, _ => none
  | fuel + 1, n, mols =>
    if (validProducts env rule mols).isEmpty then
      if 0 < n then mols.head? else none
    else
      Normalizer.apply_transform_go env rule fuel (n + 1) (roundMols env rule mols)

/-- `Normalizer._apply_transform(self, mol, rule)` (`normalize.py` lines
138-156): repeatedly apply one transform, starting from `mols = [mol]`. -/
def Normalizer.apply_transform (env : Env G R) (mol : G) (rule : R) : Option G :=
  Normalizer.apply_transform_go env rule 20 0 [mol]

/-- Result of `Normalizer.normalize`: the returned molecule together with
whether the gave-up path was taken (warning logged at `normalize.py` line 134
and `Chem.SanitizeMol` re-run at line 135). -/
structure NormResult (G : Type) where
  mol : G
  gaveUp : Bool
deriving DecidableEq, Repr

/-- The inner `for normalization in self.normalizations` loop of
`Normalizer.normalize` (`normalize.py` lines 123-129): apply each rule in
order and stop at the first one that changes the molecule, returning its
product; `none` when the pass completes with no change (the `for/else`). -/
def Normalizer.firstApplied (env : Env G R) (rules : List R) (mol : G) : Option G :=
  match rules with
  | [] => none
  | r :: rs =>
    match Normalizer.apply_transform env mol r with
    | some product => some product
    | none => Normalizer.firstApplied env rs mol

/-- The outer `for n in xrange(self.max_restarts)` loop of
`Normalizer.normalize` (`normalize.py` lines 121-136), by remaining fuel.
A change-free full pass returns the molecule (converged, `gaveUp = false`);
a change restarts scanning from the first rule; exhausted fuel takes the
warn-and-sanitize path (`gaveUp = true`). -/
def Normalizer.normalizeGo (env : Env G R) (rules : List R) :
    Nat → G → NormResult G
  | 0, mol => ⟨env.sanitizeMol mol, true⟩
  | fuel + 1, mol =>
    match Normalizer.firstApplied env rules mol with
    | none => ⟨mol, false⟩
    | some product => Normalizer.normalizeGo env rules fuel product

/-- `Normalizer.normalize(self, mol)` with rule list `rules` and
`max_restarts` restarts (`normalize.py` lines 107-136). -/
def Normalizer.normalize (env : Env G R) (rules : List R) (max_restarts : Nat)
    (mol : G) : NormResult G :=
  Normalizer.normalizeGo env rules max_restarts mol

/-- One outer-loop step as a function on graphs: the product of the first
applicable rule, or the graph itself when no rule fires. -/
def changeStep (env : Env G R) (rules : List R) (mol : G) : G :=
  match Normalizer.firstApplied env rules mol with
  | some p => p
  | none => mol

/-- Two environments that differ only in the order in which the rewrite
primitive enumerates each candidate list: validation, canonicalization and
sanitization agree pointwise, and every candidate list of `env'` is a
permutation of the corresponding list of `env`. -/
def PermEquiv (env env' : Env G R) : Prop :=
  (∀ g, env'.sanitizeOk g = env.sanitizeOk g)
  ∧ (∀ g, env'.canonical g = env.canonical g)
  ∧ (∀ g, env'.sanitizeMol g = env.sanitizeMol g)
  ∧ ∀ r g, List.Perm (env'.runReactants r g) (env.runReactants r g)

/-- The `Normalization` rule container (`normalize.py` lines 26-47) together
with the state of its lazily compiled `transform`.

Modelled from the spec: the decorator `memoized_property` lives in
`molvs/utils.py`, which is not among the sources; per the spec (RuleSpec,
§3/§4.1) the compiled transform is "lazily-constructed, memoized", "built at
most once per RuleSpec instance", computed on first access of the attribute
and cached thereafter. `cache` holds that memo cell (`none` before the first
access). -/
structure Normalization (T : Type) where
  name : String
  transform_str : String
  cache : Option T
deriving DecidableEq, Repr

/-- `Normalization.__init__(self, name, transform)` (`normalize.py` lines
29-36): store the name and the transform text. It takes no compile primitive
and installs an empty memo cell, so construction cannot invoke compilation. -/
def Normalization.init (T : Type) (name transform : String) : Normalization T :=
  ⟨name, transform, none⟩

/-- Access of the `transform` attribute (`normalize.py` lines 38-41), with the
memoization modelled from the spec (see `Normalization`). `compile` models
`AllChem.ReactionFromSmarts`. Returns the compiled transform, the updated
rule state, and the number of calls made to `compile` during this access. -/
def Normalization.transform (compile : String → T) (self : Normalization T) :
    T × Normalization T × Nat :=
  match self.cache with
  | some t => (t, self, 0)
  | none =>
    let t := compile self.transform_str
    (t, { self with cache := some t }, 1)

/-- Concrete test environment: one rule rewriting graph `0` to graph `1` and
firing nowhere else; everything validates. -/
def fwdEnv : Env (Fin 2) (Fin 1) where
  runReactants _ g := if g = 0 then [1] else []
  sanitizeOk _ := true
  canonical g := if g = 0 then "a" else "b"
  sanitizeMol g := g

/-- Concrete test environment: rule `0` rewrites graph `0` to graph `1`, rule
`1` rewrites graph `1` back to graph `0`, so the outer restart loop
oscillates forever. -/
def oscEnv : Env (Fin 2) (Fin 2) where
  runReactants r g := if r = 0 ∧ g = 0 then [1] else if r = 1 ∧ g = 1 then [0] else []
  sanitizeOk _ := true
  canonical g := if g = 0 then "a" else "b"
  sanitizeMol g := g

/-- Concrete test environment: the single rule rewrites every graph to itself,
so every inner round produces a candidate and the 20-round cap is reached. -/
def capEnv : Env (Fin 1) (Fin 1) where
  runReactants _ g := [g]
  sanitizeOk _ := true
  canonical _ := "a"
  sanitizeMol g := g

/-- Concrete test environment: the rule applied to graph `0` produces the two
distinct valid candidates `2` then `1`, and fires nowhere else. -/
def tieEnv : Env (Fin 3) (Fin 1) where
  runReactants _ g := if g = 0 then [2, 1] else []
  sanitizeOk _ := true
  canonical g := if g = 0 then "a" else if g = 1 then "b" else "c"
  sanitizeMol g := g

/-- Concrete test environment: like `tieEnv` but with the two candidates
generated in the opposite order. -/
def tieEnvRev : Env (Fin 3) (Fin 1) where
  runReactants _ g := if g = 0 then [1, 2] else []
  sanitizeOk := tieEnv.sanitizeOk
  canonical := tieEnv.canonical
  sanitizeMol := tieEnv.sanitizeMol

/-- Concrete test environment: on graph `0` the rule's only output is graph
`1`, which fails validation; on graph `1` its output is graph `0`, which
validates. -/
def invEnv : Env (Fin 2) (Fin 1) where
  runReactants _ g := if g = 0 then [1] else [0]
  sanitizeOk g := g = 0
  canonical g := if g = 0 then "a" else "b"
  sanitizeMol g := g

/-- Concrete test environment: the rule produces no candidate anywhere. -/
def noEnv : Env (Fin 2) (Fin 1) where
  runReactants _ _ := []
  sanitizeOk _ := true
  canonical g := if g = 0 then "a" else "b"
  sanitizeMol g := g

/-- Core string order, stated through Mathlib's lexicographic `List.Lex`. -/
theorem smilesLe_iff (a b : String) : smilesLe a b ↔ ¬ List.Lex (· < ·) b.data a.data := by
  unfold smilesLe String.le
  constructor
  · exact fun h hlex => h ((List.lt_iff_lex_lt _ _).mpr hlex)
  · exact fun h hlt => h ((List.lt_iff_lex_lt _ _).mp hlt)

theorem lexCharTri (l l' : List Char) :
    List.Lex (· < ·) l l' ∨ l = l' ∨ List.Lex (· < ·) l' l :=
  (inferInstanceAs (IsTrichotomous (List Char) (List.Lex (· < ·)))).trichotomous l l'

theorem lexCharAsymm {l l' : List Char} (h : List.Lex (· < ·) l l') :
    ¬ List.Lex (· < ·) l' l :=
  (inferInstanceAs (IsAsymm (List Char) (List.Lex (· < ·)))).asymm l l' h

theorem lexCharTrans {l l' l'' : List Char} (h : List.Lex (· < ·) l l')
    (h' : List.Lex (· < ·) l' l'') : List.Lex (· < ·) l l'' :=
  (inferInstanceAs (IsTrans (List Char) (List.Lex (· < ·)))).trans l l' l'' h h'

instance : IsTotal String smilesLe where
  total a b := by
    rw [smilesLe_iff, smilesLe_iff]
    rcases lexCharTri a.data b.data with h | h | h
    · exact Or.inl fun hba => lexCharAsymm h hba
    · exact Or.inl fun hba => lexCharAsymm (h ▸ hba) hba
    · exact Or.inr fun hab => lexCharAsymm h hab

instance : IsTrans String smilesLe where
  trans a b c hab hbc := by
    rw [smilesLe_iff] at hab hbc ⊢
    intro hca
    rcases lexCharTri a.data b.data with h | h | h
    · exact hbc (lexCharTrans hca h)
    · exact hbc (h ▸ hca)
    · exact hab h

instance : IsAntisymm String smilesLe where
  antisymm a b hab hba := by
    rw [smilesLe_iff] at hab hba
    rcases lexCharTri a.data b.data with h | h | h
    · exact absurd h hba
    · cases a; cases b; simp_all
    · exact absurd h hab

example : List.insertionSort smilesLe ["b", "a", "c"] = ["a", "b", "c"] := by decide

example : Normalizer.apply_transform fwdEnv 0 0 = some 1 := by decide
example : Normalizer.apply_transform fwdEnv 1 0 = none := by decide
example : Normalizer.normalize fwdEnv [0] 2 0 = ⟨1, false⟩ := by decide
example : Normalizer.normalize oscEnv [0, 1] 1 0 = ⟨1, true⟩ := by decide
example : Normalizer.normalize oscEnv [0, 1] 1 1 = ⟨0, true⟩ := by decide
example : Normalizer.apply_transform capEnv 0 0 = none := by decide
example : Normalizer.apply_transform tieEnv 0 0 = some 1 := by decide
example : Normalizer.apply_transform tieEnvRev 0 0 = some 1 := by decide
example : Normalizer.apply_transform invEnv 0 0 = none := by decide
example : Normalizer.apply_transform invEnv 1 0 = some 0 := by decide
example : Normalizer.normalize noEnv [0] 5 1 = ⟨1, false⟩ := by decide

/-- The inner pass reports no change exactly when every rule, tried in order,
reports no change. -/
theorem firstApplied_eq_none_iff (env : Env G R) (rules : List R) (mol : G) :
    Normalizer.firstApplied env rules mol = none ↔
      ∀ r ∈ rules, Normalizer.apply_transform env mol r = none := by
  induction rules with
  | nil => simp [Normalizer.firstApplied]
  | cons r rs ih =>
    simp only [Normalizer.firstApplied]
    cases h : Normalizer.apply_transform env mol r with
    | some p => simp [h]
    | none => simp [h, ih]

/-- Result `gaveUp = false` is only produced with fuel remaining. -/
theorem normalizeGo_pos_of_converged {env : Env G R} {rules : List R}
    {fuel : Nat} {mol g : G}
    (h : Normalizer.normalizeGo env rules fuel mol = ⟨g, false⟩) : 0 < fuel := by
  cases fuel with
  | zero => simp [Normalizer.normalizeGo] at h
  | succ n => exact Nat.succ_pos n

/-- A converged result is a fixed point of the inner pass: no rule fires on
the returned molecule. -/
theorem normalizeGo_converged {env : Env G R} {rules : List R} :
    ∀ {fuel : Nat} {mol g : G},
      Normalizer.normalizeGo env rules fuel mol = ⟨g, false⟩ →
      Normalizer.firstApplied env rules g = none := by
  intro fuel
  induction fuel with
  | zero => intro mol g h; simp [Normalizer.normalizeGo] at h
  | succ n ih =>
    intro mol g h
    simp only [Normalizer.normalizeGo] at h
    cases hfa : Normalizer.firstApplied env rules mol with
    | none =>
      rw [hfa] at h
      simp only [NormResult.mk.injEq] at h
      exact h.1 ▸ hfa
    | some p =>
      rw [hfa] at h
      exact ih h

/-- With fuel remaining, a change-free pass returns the molecule converged. -/
theorem normalizeGo_of_none {env : Env G R} {rules : List R} {mol : G}
    (h : Normalizer.firstApplied env rules mol = none) :
    ∀ {fuel : Nat}, 0 < fuel →
      Normalizer.normalizeGo env rules fuel mol = ⟨mol, false⟩ := by
  intro fuel hpos
  cases fuel with
  | zero => exact absurd hpos (Nat.lt_irrefl 0)
  | succ n => simp only [Normalizer.normalizeGo, h]

/-- After a rule fires, the loop recurses on the product with one fewer
restart, scanning the whole rule list again. -/
theorem normalizeGo_step {env : Env G R} {rules : List R} {fuel : Nat}
    {mol p : G} (h : Normalizer.firstApplied env rules mol = some p) :
    Normalizer.normalizeGo env rules (fuel + 1) mol =
      Normalizer.normalizeGo env rules fuel p := by
  simp only [Normalizer.normalizeGo, h]


/-- When every one of the `k` passes finds a rule that fires, the loop runs
out of restarts and takes the warn-and-sanitize path on the graph reached
after `k` accepted rewrites. -/
theorem normalizeGo_gave_up {env : Env G R} {rules : List R} :
    ∀ (k : Nat) (mol : G),
      (∀ j < k,
        Normalizer.firstApplied env rules ((changeStep env rules)^[j] mol) ≠ none) →
      Normalizer.normalizeGo env rules k mol =
        ⟨env.sanitizeMol ((changeStep env rules)^[k] mol), true⟩ := by
  intro k
  induction k with
  | zero => intro mol _; simp [Normalizer.normalizeGo]
  | succ n ih =>
    intro mol h
    have h0 := h 0 (Nat.succ_pos n)
    simp only [Function.iterate_zero_apply] at h0
    cases hfa : Normalizer.firstApplied env rules mol with
    | none => exact absurd hfa h0
    | some p =>
      have hcs : changeStep env rules mol = p := by simp [changeStep, hfa]
      rw [normalizeGo_step hfa]
      have hrec := ih p (fun j hj => by
        have hjs := h (j + 1) (Nat.succ_lt_succ hj)
        rwa [Function.iterate_succ_apply, hcs] at hjs)
      rw [hrec, Function.iterate_succ_apply, hcs]

/-- Claim C1: `normalize` returns via the converged (non-warning) path only
after one complete in-order pass over the entire rule sequence in which no
rule changed the graph — formally, on the returned graph every rule of the
sequence reports no change — and whenever any single rule changes the graph,
scanning resumes with the whole rule sequence from position 0 on the product,
with one restart consumed. -/
theorem normalize_restart_semantics (env : Env G R) (rules : List R)
    (k : Nat) (mol g p : G) :
    (Normalizer.normalize env rules k mol = ⟨g, false⟩ →
      ∀ r ∈ rules, Normalizer.apply_transform env g r = none)
    ∧ (Normalizer.firstApplied env rules mol = some p →
      Normalizer.normalize env rules (k + 1) mol =
        Normalizer.normalize env rules k p) :=
  ⟨fun h => (firstApplied_eq_none_iff env rules g).mp (normalizeGo_converged h),
   fun h => normalizeGo_step h⟩

/-- Witness for C1 on `fwdEnv`: the converged output `1` of
`normalize [rule0] 2 0` is untouched by every rule, and after the rule fires
on `0` the loop continues as a fresh full scan on the product `1`. -/
theorem normalize_restart_semantics_witness :
    Normalizer.apply_transform fwdEnv 1 0 = none
    ∧ Normalizer.normalize fwdEnv [0] 3 0 = Normalizer.normalize fwdEnv [0] 2 1 :=
  ⟨(normalize_restart_semantics fwdEnv [0] 2 0 1 1).1 (by decide) 0 (by decide),
   (normalize_restart_semantics fwdEnv [0] 2 0 1 1).2 (by decide)⟩

/-- Counterexample to claim C4 as stated: with the oscillating two-rule
sequence of `oscEnv` and `max_restarts = 1` in both calls,
`normalize(normalize(0))` returns graph `0` (canonical string `"a"`) while
`normalize(0)` returns graph `1` (canonical string `"b"`). -/
theorem normalize_not_idempotent :
    ¬ (oscEnv.canonical (Normalizer.normalize oscEnv [0, 1] 1
          (Normalizer.normalize oscEnv [0, 1] 1 0).mol).mol
        = oscEnv.canonical (Normalizer.normalize oscEnv [0, 1] 1 0).mol) := by
  decide

/-- Claim C4 (amended): `normalize` is idempotent under canonical-string
equality whenever the first call returns via the converged (non-warning)
path; when the restart bound is hit the law can fail (see
`normalize_not_idempotent`). -/
theorem normalize_idempotent_of_converged (env : Env G R) (rules : List R)
    (k : Nat) (mol g : G)
    (h : Normalizer.normalize env rules k mol = ⟨g, false⟩) :
    Normalizer.normalize env rules k g = ⟨g, false⟩ ∧
      env.canonical (Normalizer.normalize env rules k
          (Normalizer.normalize env rules k mol).mol).mol
        = env.canonical (Normalizer.normalize env rules k mol).mol := by
  have h1 : Normalizer.normalize env rules k g = ⟨g, false⟩ :=
    normalizeGo_of_none (normalizeGo_converged h) (normalizeGo_pos_of_converged h)
  refine ⟨h1, ?_⟩
  rw [h]
  simpa using congrArg (fun x => env.canonical x.mol) h1

/-- Witness for the amended C4 on `fwdEnv`: `normalize [rule0] 2 0`
converges to `1`, and normalizing `1` again returns `1` converged. -/
theorem normalize_idempotent_of_converged_witness :
    Normalizer.normalize fwdEnv [0] 2 1 = ⟨1, false⟩ :=
  (normalize_idempotent_of_converged fwdEnv [0] 2 0 1 (by decide)).1

/-- Claim C6: if `max_restarts` outer passes elapse with a rule firing on
every pass, `normalize` does not raise: it takes the warning path
(`gaveUp = true`), re-sanitizes the graph reached after the `k` accepted
rewrites, and returns it — in particular it returns after exactly
`max_restarts` restarts. -/
theorem normalize_gave_up (env : Env G R) (rules : List R) (k : Nat) (mol : G)
    (h : ∀ j < k,
      Normalizer.firstApplied env rules ((changeStep env rules)^[j] mol) ≠ none) :
    Normalizer.normalize env rules k mol =
      ⟨env.sanitizeMol ((changeStep env rules)^[k] mol), true⟩ :=
  normalizeGo_gave_up k mol h

/-- Witness for C6 on `oscEnv` with `max_restarts = 1`: the pass rewrites
`0` to `1`, the bound is hit, and `⟨1, gaveUp := true⟩` is returned. -/
theorem normalize_gave_up_witness :
    Normalizer.normalize oscEnv [0, 1] 1 0 = ⟨1, true⟩ := by
  have h := normalize_gave_up oscEnv [0, 1] 1 0 (by
    intro j hj
    have hj0 : j = 0 := Nat.lt_one_iff.mp hj
    subst hj0
    decide)
  rw [h]
  decide

/-- Claim C7: a candidate failing validation is silently excluded from the
round's candidate set (every member of `validProducts` passed validation),
and a transform whose every round-0 output fails validation makes
`_apply_transform` return `None`, exactly as if the rule were inapplicable. -/
theorem apply_transform_invalid_filtered (env : Env G R) (rule : R)
    (mols : List G) (mol : G) :
    (∀ p ∈ validProducts env rule mols, env.sanitizeOk p = true)
    ∧ ((∀ q ∈ env.runReactants rule mol, env.sanitizeOk q = false) →
      Normalizer.apply_transform env mol rule = none) := by
  constructor
  · intro p hp
    exact (List.mem_filter.mp hp).2
  · intro hall
    have hvp : validProducts env rule [mol] = [] := by
      simp only [validProducts, List.flatMap_cons, List.flatMap_nil, List.append_nil]
      rw [List.filter_eq_nil_iff]
      intro a ha
      simp [hall a ha]
    simp [Normalizer.apply_transform, Normalizer.apply_transform_go, hvp]

/-- Witness for C7 on `invEnv`: the valid product `0` (of the rule applied to
`[1]`) did pass validation, and on graph `0`, whose only output `1` fails
validation, the transform reports no change. -/
theorem apply_transform_invalid_filtered_witness :
    invEnv.sanitizeOk 0 = true ∧ Normalizer.apply_transform invEnv 0 0 = none :=
  ⟨(apply_transform_invalid_filtered invEnv 0 [1] 0).1 0 (by decide),
   (apply_transform_invalid_filtered invEnv 0 [1] 0).2 (by decide)⟩

/-- Claim C8: when no rule of the sequence fires on `g` (every per-rule
exhaustive application reports no change), `normalize` returns `g` itself,
converged — no gave-up warning and no re-sanitization. -/
theorem normalize_noop (env : Env G R) (rules : List R) (k : Nat) (g : G)
    (hk : 0 < k)
    (h : ∀ r ∈ rules, Normalizer.apply_transform env g r = none) :
    Normalizer.normalize env rules k g = ⟨g, false⟩ :=
  normalizeGo_of_none ((firstApplied_eq_none_iff env rules g).mpr h) hk

/-- Witness for C8 on `noEnv`, whose rule never produces a candidate. -/
theorem normalize_noop_witness :
    Normalizer.normalize noEnv [0] 5 1 = ⟨1, false⟩ :=
  normalize_noop noEnv [0] 5 1 (by decide) (by decide)

/-- Claim C2, code behavior at the 20-round cap: on `capEnv`, whose transform
fires on every graph, every round's candidate list is non-empty, yet
`_apply_transform` returns `None` — the Python loop completes all 20
iterations and falls off the end of the function — instead of freezing the
frontier and returning its lexicographically smallest member as the claim
(and the function's own docstring) state. -/
theorem apply_transform_cap_none :
    Normalizer.apply_transform capEnv 0 0 = none
    ∧ ∀ g : Fin 1, (validProducts capEnv 0 [g]).isEmpty = false := by
  decide

/-- Claim C9: `Normalization` construction stores only the name and pattern
text with an empty memo cell and cannot invoke the compile primitive (it is
not even passed one); the first access of `transform` invokes `compile`
exactly once and caches the result; a repeated access after the first, and
more generally any access on a filled cache, returns the same compiled
object with zero further `compile` invocations. -/
theorem normalization_lazy_memoized (T : Type) (compile : String → T)
    (name text : String) (r : Normalization T) (t : T) :
    (Normalization.init T name text).cache = none
    ∧ Normalization.transform compile (Normalization.init T name text)
        = (compile text, ⟨name, text, some (compile text)⟩, 1)
    ∧ Normalization.transform compile
          ((Normalization.transform compile (Normalization.init T name text)).2.1)
        = (compile text, ⟨name, text, some (compile text)⟩, 0)
    ∧ (r.cache = some t → Normalization.transform compile r = (t, r, 0)) := by
  refine ⟨rfl, rfl, rfl, ?_⟩
  intro h
  simp [Normalization.transform, h]

/-- Witness for C9: a `Normalization` whose cache already holds `5` returns
`5` with zero compile calls. -/
theorem normalization_lazy_memoized_witness :
    Normalization.transform String.length ⟨"n", "p", some 5⟩
      = (5, ⟨"n", "p", some 5⟩, 0) :=
  (normalization_lazy_memoized Nat String.length "n" "p" ⟨"n", "p", some 5⟩ 5).2.2.2 rfl

/-- Claim C10: calling `normalize` with `max_restarts = 0` never enters the
rule-scanning loop — no rule is ever applied, whatever the rule list — and
immediately takes the gave-up path: warning, sanitization of the input graph,
and return. -/
theorem normalize_zero_restarts (env : Env G R) (rules : List R) (g : G) :
    Normalizer.normalize env rules 0 g = ⟨env.sanitizeMol g, true⟩ := rfl

/-- The string order is reflexive. -/
theorem smilesLe_refl (a : String) : smilesLe a a :=
  (smilesLe_iff a a).mpr (fun h => lexCharAsymm h h)

/-- A dict value lies among the round's valid products and its canonical
string is its key. -/
theorem dictLookup_mem_canonical {env : Env G R} {s : String} {ps : List G}
    {p : G} (h : dictLookup env s ps = some p) :
    p ∈ ps ∧ env.canonical p = s := by
  have hmem : p ∈ ps.filter (fun q => env.canonical q == s) := by
    obtain ⟨hne, heq⟩ := List.mem_getLast?_eq_getLast (l := ps.filter
      (fun q => env.canonical q == s)) (x := p) h
    exact heq ▸ List.getLast_mem hne
  have := List.mem_filter.mp hmem
  exact ⟨this.1, by simpa using this.2⟩

/-- Every key that is the canonical string of some product has a dict value. -/
theorem dictLookup_isSome_of_mem {env : Env G R} {s : String} {ps : List G}
    (h : s ∈ ps.map env.canonical) : (dictLookup env s ps).isSome := by
  obtain ⟨p, hp, hps⟩ := List.mem_map.mp h
  have hmem : p ∈ ps.filter (fun q => env.canonical q == s) :=
    List.mem_filter.mpr ⟨hp, by simp [hps]⟩
  unfold dictLookup
  cases hl : ps.filter (fun q => env.canonical q == s) with
  | nil => rw [hl] at hmem; cases hmem
  | cons a t => simp [List.getLast?_eq_getLast_of_ne_nil (List.cons_ne_nil a t)]

/-- Reading the dict back along a list of keys drawn from the products
reproduces exactly those keys. -/
theorem filterMap_dictLookup_canonical (env : Env G R) (ps : List G) :
    ∀ keys : List String, (∀ s ∈ keys, s ∈ ps.map env.canonical) →
      (keys.filterMap (fun s => dictLookup env s ps)).map env.canonical = keys := by
  intro keys
  induction keys with
  | nil => intro _; rfl
  | cons s ks ih =>
    intro hk
    obtain ⟨p, hp⟩ := Option.isSome_iff_exists.mp
      (dictLookup_isSome_of_mem (hk s (List.mem_cons_self s ks)))
    rw [List.filterMap_cons, hp, List.map_cons,
      (dictLookup_mem_canonical hp).2,
      ih (fun q hq => hk q (List.mem_cons_of_mem s hq))]

/-- The canonical strings of the next round's frontier are exactly the sorted
dict keys. -/
theorem map_canonical_roundMols (env : Env G R) (rule : R) (mols : List G) :
    (roundMols env rule mols).map env.canonical =
      sortedKeys env (validProducts env rule mols) := by
  apply filterMap_dictLookup_canonical
  intro s hs
  unfold sortedKeys at hs
  exact List.mem_dedup.mp ((List.mem_insertionSort smilesLe).mp hs)

/-- The frontier produced by a round is sorted by canonical string. -/
theorem sorted_roundMols (env : Env G R) (rule : R) (mols : List G) :
    List.Sorted smilesLe ((roundMols env rule mols).map env.canonical) := by
  rw [map_canonical_roundMols]
  exact List.sorted_insertionSort smilesLe _

/-- The head of a round's frontier has the lexicographically smallest
canonical string in the frontier. -/
theorem roundMols_head_min {env : Env G R} {rule : R} {mols : List G} {g : G}
    (h : (roundMols env rule mols).head? = some g) :
    g ∈ roundMols env rule mols ∧
      ∀ q ∈ roundMols env rule mols, smilesLe (env.canonical g) (env.canonical q) := by
  obtain ⟨t, ht⟩ := List.head?_eq_some_iff.mp h
  have hsorted := sorted_roundMols env rule mols
  rw [ht] at hsorted ⊢
  refine ⟨List.mem_cons_self g t, ?_⟩
  intro q hq
  rcases List.mem_cons.mp hq with hq | hq
  · exact hq ▸ smilesLe_refl (env.canonical g)
  · exact (List.sorted_cons.mp (by simpa using hsorted)).1 (env.canonical q)
      (List.mem_map_of_mem env.canonical hq)

/-- Each `some` outcome of the inner 20-round loop is the head of the
frontier obtained by some positive number of rounds from the initial frontier,
at which the transform no longer fires. -/
theorem apply_transform_go_some {env : Env G R} {rule : R} :
    ∀ {fuel n : Nat} {mols : List G} {g : G},
      Normalizer.apply_transform_go env rule fuel n mols = some g →
      ∃ j : Nat, ((roundMols env rule)^[j] mols).head? = some g
        ∧ (validProducts env rule ((roundMols env rule)^[j] mols)).isEmpty
        ∧ 0 < n + j := by
  intro fuel
  induction fuel with
  | zero => intro n mols g h; cases h
  | succ m ih =>
    intro n mols g h
    simp only [Normalizer.apply_transform_go] at h
    cases hemp : (validProducts env rule mols).isEmpty with
    | true =>
      rw [hemp] at h
      simp only [if_true] at h
      cases hn : n with
      | zero => rw [hn] at h; simp at h
      | succ n0 =>
        rw [hn] at h
        simp only [Nat.succ_pos, if_true] at h
        exact ⟨0, by simpa using h, by simpa using hemp, Nat.succ_pos _⟩
    | false =>
      rw [hemp] at h
      simp only [Bool.false_eq_true, if_false] at h
      obtain ⟨j, hj1, hj2, hj3⟩ := ih h
      refine ⟨j + 1, ?_, ?_, ?_⟩
      · rwa [Function.iterate_succ_apply]
      · rwa [Function.iterate_succ_apply]
      · omega


/-- Reordering candidate generation permutes a round's valid products. -/
theorem validProducts_perm {env env' : Env G R} (hpe : PermEquiv env env')
    (rule : R) (mols : List G) :
    List.Perm (validProducts env' rule mols) (validProducts env rule mols) := by
  unfold validProducts
  have hflat : List.Perm (mols.flatMap (env'.runReactants rule))
      (mols.flatMap (env.runReactants rule)) :=
    List.Perm.flatMap_left mols (fun a _ => hpe.2.2.2 rule a)
  have h1 : List.filter env'.sanitizeOk (mols.flatMap (env'.runReactants rule))
      = List.filter env.sanitizeOk (mols.flatMap (env'.runReactants rule)) :=
    List.filter_congr (fun a _ => hpe.1 a)
  rw [h1]
  exact hflat.filter env.sanitizeOk

/-- A permutation preserves the length-zero test. -/
theorem perm_isEmpty_eq {l₁ l₂ : List G} (h : List.Perm l₁ l₂) :
    l₁.isEmpty = l₂.isEmpty := by
  have := h.length_eq
  cases l₁ <;> cases l₂ <;> simp_all

/-- Over a list whose elements are all equal to each other, `getLast?` is
invariant under permutation. -/
theorem getLast?_eq_of_perm_of_allEq {l₁ l₂ : List G}
    (hp : List.Perm l₁ l₂) (hall : ∀ a ∈ l₁, ∀ b ∈ l₁, a = b) :
    l₁.getLast? = l₂.getLast? := by
  cases hl : l₁ with
  | nil =>
    rw [hl] at hp
    rw [hp.symm.eq_nil]
  | cons a t =>
    rw [hl] at hp hall
    have h2 : l₂ ≠ [] := by
      intro hnil
      rw [hnil] at hp
      exact List.cons_ne_nil a t hp.eq_nil
    have hg1 : (a :: t).getLast? = some a := by
      rw [List.getLast?_eq_getLast_of_ne_nil (List.cons_ne_nil a t)]
      exact congrArg some (hall _ (List.getLast_mem _) _ (List.mem_cons_self a t))
    have hg2 : l₂.getLast? = some a := by
      rw [List.getLast?_eq_getLast_of_ne_nil h2]
      exact congrArg some
        (hall _ (hp.symm.subset (List.getLast_mem h2)) _ (List.mem_cons_self a t))
    rw [hg1, hg2]

/-- When canonical strings identify graphs, the dict value at each key is
invariant under permutation of the products. -/
theorem dictLookup_perm {env : Env G R}
    (hinj : Function.Injective env.canonical) {ps ps' : List G}
    (hp : List.Perm ps ps') (s : String) :
    dictLookup env s ps = dictLookup env s ps' := by
  unfold dictLookup
  apply getLast?_eq_of_perm_of_allEq (hp.filter _)
  intro a ha b hb
  have ha2 := (List.mem_filter.mp ha).2
  have hb2 := (List.mem_filter.mp hb).2
  simp only [beq_iff_eq] at ha2 hb2
  exact hinj (ha2.trans hb2.symm)

/-- The dict value depends on the environment only through `canonical`. -/
theorem dictLookup_congr_env {env env' : Env G R} (hpe : PermEquiv env env')
    (s : String) (ps : List G) : dictLookup env' s ps = dictLookup env s ps := by
  unfold dictLookup
  have h1 : ps.filter (fun p => env'.canonical p == s)
      = ps.filter (fun p => env.canonical p == s) :=
    List.filter_congr (fun a _ => by rw [hpe.2.1 a])
  rw [h1]

/-- The sorted key list of a round is invariant under reordered candidate
generation. -/
theorem sortedKeys_permEquiv {env env' : Env G R} (hpe : PermEquiv env env')
    {ps ps' : List G} (hp : List.Perm ps' ps) :
    sortedKeys env' ps' = sortedKeys env ps := by
  unfold sortedKeys
  have hmap : List.Perm (ps'.map env'.canonical) (ps.map env.canonical) := by
    rw [List.map_congr_left (fun a _ => hpe.2.1 a)]
    exact hp.map env.canonical
  refine List.eq_of_perm_of_sorted ?_ (List.sorted_insertionSort smilesLe _)
    (List.sorted_insertionSort smilesLe _)
  exact ((List.perm_insertionSort smilesLe _).trans hmap.dedup).trans
    (List.perm_insertionSort smilesLe _).symm

/-- With injective canonicalization, a round's output frontier is identical
under reordered candidate generation. -/
theorem roundMols_permEquiv {env env' : Env G R}
    (hinj : Function.Injective env.canonical) (hpe : PermEquiv env env')
    (rule : R) (mols : List G) :
    roundMols env' rule mols = roundMols env rule mols := by
  unfold roundMols
  rw [sortedKeys_permEquiv hpe (validProducts_perm hpe rule mols)]
  apply List.filterMap_congr
  intro s _
  rw [dictLookup_congr_env hpe,
    dictLookup_perm hinj (validProducts_perm hpe rule mols) s]

/-- With injective canonicalization, the whole inner loop is identical under
reordered candidate generation. -/
theorem apply_transform_go_permEquiv {env env' : Env G R}
    (hinj : Function.Injective env.canonical) (hpe : PermEquiv env env')
    (rule : R) : ∀ (fuel n : Nat) (mols : List G),
    Normalizer.apply_transform_go env' rule fuel n mols =
      Normalizer.apply_transform_go env rule fuel n mols := by
  intro fuel
  induction fuel with
  | zero => intro n mols; rfl
  | succ m ih =>
    intro n mols
    simp only [Normalizer.apply_transform_go]
    rw [perm_isEmpty_eq (validProducts_perm hpe rule mols),
      roundMols_permEquiv hinj hpe rule mols]
    cases (validProducts env rule mols).isEmpty with
    | true => rfl
    | false => simp only [Bool.false_eq_true, if_false, ih]

/-- `_apply_transform` is invariant under reordered candidate generation. -/
theorem apply_transform_permEquiv {env env' : Env G R}
    (hinj : Function.Injective env.canonical) (hpe : PermEquiv env env')
    (mol : G) (rule : R) :
    Normalizer.apply_transform env' mol rule =
      Normalizer.apply_transform env mol rule :=
  apply_transform_go_permEquiv hinj hpe rule 20 0 [mol]

/-- The inner pass is invariant under reordered candidate generation. -/
theorem firstApplied_permEquiv {env env' : Env G R}
    (hinj : Function.Injective env.canonical) (hpe : PermEquiv env env')
    (rules : List R) (mol : G) :
    Normalizer.firstApplied env' rules mol =
      Normalizer.firstApplied env rules mol := by
  induction rules with
  | nil => rfl
  | cons r rs ih =>
    simp only [Normalizer.firstApplied, apply_transform_permEquiv hinj hpe mol r, ih]

/-- The outer loop is invariant under reordered candidate generation. -/
theorem normalizeGo_permEquiv {env env' : Env G R}
    (hinj : Function.Injective env.canonical) (hpe : PermEquiv env env')
    (rules : List R) : ∀ (fuel : Nat) (mol : G),
    Normalizer.normalizeGo env' rules fuel mol =
      Normalizer.normalizeGo env rules fuel mol := by
  intro fuel
  induction fuel with
  | zero => intro mol; simp only [Normalizer.normalizeGo, hpe.2.2.1 mol]
  | succ m ih =>
    intro mol
    simp only [Normalizer.normalizeGo, firstApplied_permEquiv hinj hpe rules mol]
    cases Normalizer.firstApplied env rules mol with
    | none => rfl
    | some p => exact ih p

/-- Claim C3: whenever `_apply_transform` fires and returns a graph, that
graph belongs to the final frontier — the output of the last round, on which
the transform no longer fires — and its canonical string is
lexicographically smallest among the frontier's members; moreover, with
canonical strings identifying graphs, the very same graph is returned
whatever order the candidates were generated or iterated in. -/
theorem apply_transform_tiebreak (env env' : Env G R) (rule : R) (mol g : G)
    (hinj : Function.Injective env.canonical) (hpe : PermEquiv env env')
    (h : Normalizer.apply_transform env mol rule = some g) :
    (∃ prev : List G, g ∈ roundMols env rule prev
      ∧ (∀ q ∈ roundMols env rule prev,
          smilesLe (env.canonical g) (env.canonical q))
      ∧ (validProducts env rule (roundMols env rule prev)).isEmpty)
    ∧ Normalizer.apply_transform env' mol rule = some g := by
  constructor
  · obtain ⟨j, hj1, hj2, hj3⟩ := apply_transform_go_some h
    cases j with
    | zero => omega
    | succ k =>
      rw [Function.iterate_succ_apply'] at hj1 hj2
      obtain ⟨hmem, hmin⟩ := roundMols_head_min hj1
      exact ⟨(roundMols env rule)^[k] [mol], hmem, hmin, hj2⟩
  · rw [apply_transform_permEquiv hinj hpe mol rule]
    exact h

/-- Witness for C3 on `tieEnv`/`tieEnvRev`: the rule leaves the two distinct
valid candidates `1` (canonical `"b"`) and `2` (canonical `"c"`); the chosen
output is `1`, also under the reversed generation order. -/
theorem apply_transform_tiebreak_witness :
    Normalizer.apply_transform tieEnvRev 0 0 = some 1 :=
  (apply_transform_tiebreak tieEnv tieEnvRev 0 0 1 (by decide)
    ⟨fun g => rfl, fun g => rfl, fun g => rfl, by decide⟩
    (by decide)).2

/-- Claim C5: `normalize` is deterministic: with canonical strings
identifying graphs, two runs whose rewrite primitive enumerates each round's
candidate lists in different orders return the same result — in particular
outputs with identical canonical strings. -/
theorem normalize_deterministic (env env' : Env G R) (rules : List R)
    (k : Nat) (mol : G)
    (hinj : Function.Injective env.canonical) (hpe : PermEquiv env env') :
    Normalizer.normalize env' rules k mol = Normalizer.normalize env rules k mol
    ∧ env'.canonical (Normalizer.normalize env' rules k mol).mol
        = env.canonical (Normalizer.normalize env rules k mol).mol := by
  have h1 : Normalizer.normalize env' rules k mol
      = Normalizer.normalize env rules k mol :=
    normalizeGo_permEquiv hinj hpe rules k mol
  exact ⟨h1, by rw [h1, hpe.2.1]⟩

/-- Witness for C5 on `tieEnv`/`tieEnvRev`: reversing candidate generation
order leaves the normalize result unchanged. -/
theorem normalize_deterministic_witness :
    Normalizer.normalize tieEnvRev [0] 2 0 = Normalizer.normalize tieEnv [0] 2 0 :=
  (normalize_deterministic tieEnv tieEnvRev [0] 2 0 (by decide)
    ⟨fun g => rfl, fun g => rfl, fun g => rfl, by decide⟩).1
